import Mathlib

/-!
# KP Scoreboard — verification of the score-tracking core

Shallow embedding of the score ledger in `src/pages/Index.tsx` (the
`unnamed/part_000` variant has byte-identical core logic).  The React
`useState` pair `(gameState, actionHistory)` is modelled as an explicit
`Ledger` record threaded through pure functions; `setGameState`/`saveAction`
calls become functional updates applied in program order.  A JavaScript
`TypeError` thrown before any observable mutation (the only throwing path in
the core is `players[playerIndex]` being `undefined` inside `addPoint`) is
modelled as `Option.none`; operations that return normally yield the updated
ledger.  JavaScript numbers are modelled as `Int`: every score the program
produces is an integer (multiples of 10 and sums thereof).
-/

namespace KP

/-- `interface Player` from Index.tsx. -/
structure Player where
  name : String
  totalScore : Int
  roundScores : List Int
  deriving DecidableEq, Repr

/-- The `type` field of `interface GameAction`. -/
inductive ActionType where
  | addPoint
  | endRound
  | resetRound
  deriving DecidableEq, Repr

/-- `interface GameState` from Index.tsx. -/
structure GameState where
  players : List Player
  currentRound : Nat
  gameEnded : Bool
  deriving DecidableEq, Repr

/-- `interface GameAction`: the undo record, holding a deep copy of the
pre-mutation state (`JSON.parse(JSON.stringify(gameState))`). -/
structure GameAction where
  type : ActionType
  playerIndex : Option Int
  roundIndex : Option Nat
  previousState : GameState
  deriving DecidableEq, Repr

/-- The two `useState` cells owned by the component: the authoritative game
state and the append-only undo history. -/
structure Ledger where
  gameState : GameState
  actionHistory : List GameAction
  deriving DecidableEq, Repr

/-- JavaScript's `String.prototype.trim()`: strips whitespace from both ends.
(Lean's built-in `String.trim` is extensionally the same but is defined
through `Substring` byte positions that the kernel cannot evaluate, so the
character-list form is used.) -/
def jsTrim (s : String) : String :=
  ⟨((s.data.dropWhile Char.isWhitespace).reverse.dropWhile Char.isWhitespace).reverse⟩

/-- `handleSetupComplete`: filters out names that trim to empty, requires at
least two valid names (else the toast-and-return path, modelled as `none`),
and builds one player per valid name with `totalScore = 0`,
`roundScores = [0]`, round `0`, history cleared. -/
def handleSetupComplete (playerNames : List String) : Option Ledger :=
  let validNames := playerNames.filter (fun n => jsTrim n != "")
  if validNames.length < 2 then none
  else some
    { gameState :=
        { players := validNames.map (fun n =>
            { name := jsTrim n, totalScore := 0, roundScores := [0] })
          currentRound := 0
          gameEnded := false }
      actionHistory := [] }

/-- `addPoint(playerIndex)`.  Guard: early return (unchanged ledger) when
`gameEnded`.  For an index with no player, `newPlayers[playerIndex]` is
`undefined` and `.roundScores` throws a TypeError inside the state updater,
before any field assignment and before `saveAction` runs: modelled as `none`
with nothing mutated.  Otherwise `roundScores[currentRound] += 10` and
`totalScore += 10`, and an `addPoint` action capturing the prior state is
appended.  (When `currentRound ≥ roundScores.length` — unreachable, since
reachable open states keep `length = currentRound + 1` — JavaScript would
write `NaN`; the `getD`/`set` model makes that branch a no-op instead.) -/
def addPoint (l : Ledger) (playerIndex : Int) : Option Ledger :=
  if l.gameState.gameEnded then some l
  else if 0 ≤ playerIndex then
    match l.gameState.players.get? playerIndex.toNat with
    | none => none
    | some p =>
      let r := l.gameState.currentRound
      let p' : Player :=
        { p with
            roundScores := p.roundScores.set r (p.roundScores.getD r 0 + 10)
            totalScore := p.totalScore + 10 }
      some
        { gameState :=
            { l.gameState with
                players := l.gameState.players.set playerIndex.toNat p' }
          actionHistory := l.actionHistory ++
            [{ type := .addPoint
               playerIndex := some playerIndex
               roundIndex := some r
               previousState := l.gameState }] }
  else none

/-- `endRound()`: guard on `gameEnded`; appends a `0` entry to every player's
`roundScores`, increments `currentRound`, and appends an `endRound` action
record with the prior state. -/
def endRound (l : Ledger) : Ledger :=
  if l.gameState.gameEnded then l
  else
    { gameState :=
        { l.gameState with
            currentRound := l.gameState.currentRound + 1
            players := l.gameState.players.map (fun p =>
              { p with roundScores := p.roundScores ++ [0] }) }
      actionHistory := l.actionHistory ++
        [{ type := .endRound
           playerIndex := none
           roundIndex := none
           previousState := l.gameState }] }

/-- `resetCurrentRound()`: guard on `gameEnded`; for every player, subtracts
`roundScores[currentRound]` from `totalScore` and sets that entry to `0`,
then appends a `resetRound` action record.  (An out-of-bounds `currentRound`
— unreachable in reachable states — would read `undefined` in JavaScript;
`getD _ 0` / `List.set` model the in-bounds behaviour exactly.) -/
def resetCurrentRound (l : Ledger) : Ledger :=
  if l.gameState.gameEnded then l
  else
    let r := l.gameState.currentRound
    { gameState :=
        { l.gameState with
            players := l.gameState.players.map (fun p =>
              { p with
                  totalScore := p.totalScore - p.roundScores.getD r 0
                  roundScores := p.roundScores.set r 0 }) }
      actionHistory := l.actionHistory ++
        [{ type := .resetRound
           playerIndex := none
           roundIndex := none
           previousState := l.gameState }] }

/-- `undoLastAction()`: early return when the history is empty; otherwise
installs the last action's `previousState` wholesale and pops the record. -/
def undoLastAction (l : Ledger) : Ledger :=
  match l.actionHistory.getLast? with
  | none => l
  | some a => { gameState := a.previousState, actionHistory := l.actionHistory.dropLast }

/-- The state transition of `endGame()`: sets `gameEnded = true` and nothing
else — no action record is appended (the winner computation below only feeds
the toast). -/
def endGameStep (l : Ledger) : Ledger :=
  { l with gameState := { l.gameState with gameEnded := true } }

/-- The winner `endGame()` announces:
`players.reduce((prev, current) => prev.totalScore > current.totalScore ? prev : current)`.
`Array.prototype.reduce` with no initial value throws on an empty array
(`none` here) and otherwise folds from the first element. -/
def endGameWinner (players : List Player) : Option Player :=
  match players with
  | [] => none
  | p :: rest =>
      some (rest.foldl
        (fun prev current =>
          if prev.totalScore > current.totalScore then prev else current) p)

/-- `getLeaderPosition(playerIndex)`: decorate each player with its
`originalIndex`, stable-sort by `totalScore` descending
(`.sort((a, b) => b.totalScore - a.totalScore)`; ECMAScript `sort` is stable,
so `insertScoreDesc`-based insertion sort below produces the identical list),
then `findIndex` of the original index plus one (JavaScript's `-1 + 1 = 0`
when absent becomes the `none ⇒ 0` branch). -/
def insertScoreDesc (x : Nat × Player) : List (Nat × Player) → List (Nat × Player)
  | [] => [x]
  | y :: ys =>
      if x.2.totalScore ≥ y.2.totalScore then x :: y :: ys
      else y :: insertScoreDesc x ys

/-- Stable descending-by-`totalScore` sort of index-decorated players. -/
def sortScoreDesc : List (Nat × Player) → List (Nat × Player)
  | [] => []
  | x :: xs => insertScoreDesc x (sortScoreDesc xs)

/-- `getLeaderPosition` itself, over the roster. -/
def getLeaderPosition (players : List Player) (playerIndex : Nat) : Nat :=
  let sorted := sortScoreDesc players.enum
  match sorted.findIdx? (fun p => p.1 = playerIndex) with
  | some k => k + 1
  | none => 0

/-- The in-game operations a user can trigger once setup completed. -/
inductive Op where
  | addPoint (playerIndex : Int)
  | endRound
  | resetRound
  | undo
  | endGame
  deriving DecidableEq, Repr

/-- One user action applied to the ledger; `none` models the one throwing
path (out-of-range `addPoint`). -/
def step (l : Ledger) : Op → Option Ledger
  | .addPoint i => addPoint l i
  | .endRound => some (endRound l)
  | .resetRound => some (resetCurrentRound l)
  | .undo => some (undoLastAction l)
  | .endGame => some (endGameStep l)

/-- Ledgers reachable from a completed setup by any sequence of user
actions. -/
inductive Reachable : Ledger → Prop where
  | setup (names : List String) (l : Ledger)
      (h : handleSetupComplete names = some l) : Reachable l
  | next (l : Ledger) (op : Op) (l' : Ledger)
      (hl : Reachable l) (h : step l op = some l') : Reachable l'

/-- The per-state invariants: every total is the sum of the round scores, and
while the game is open every player has exactly one score entry per round. -/
def GoodState (s : GameState) : Prop :=
  (∀ p ∈ s.players, p.totalScore = p.roundScores.sum) ∧
  (s.gameEnded = false → ∀ p ∈ s.players, p.roundScores.length = s.currentRound + 1)

/-- The ledger invariant: the live state is good, and every snapshot in the
history was captured from a good, still-open state. -/
def GoodLedger (l : Ledger) : Prop :=
  GoodState l.gameState ∧
  ∀ a ∈ l.actionHistory, a.previousState.gameEnded = false ∧ GoodState a.previousState

theorem goodLedger_setup {names : List String} {l : Ledger}
    (h : handleSetupComplete names = some l) : GoodLedger l := by
  unfold handleSetupComplete at h
  by_cases hlen : (names.filter (fun n => jsTrim n != "")).length < 2
  · simp [hlen] at h
  · simp only [if_neg hlen, Option.some.injEq] at h
    subst h
    refine ⟨⟨?_, ?_⟩, by simp⟩
    · intro p hp
      simp only [List.mem_map] at hp
      obtain ⟨n, _, rfl⟩ := hp
      simp
    · intro _ p hp
      simp only [List.mem_map] at hp
      obtain ⟨n, _, rfl⟩ := hp
      simp

theorem getD_zero_eq_getElem (l : List Int) (n : Nat) (h : n < l.length) :
    l.getD n 0 = l[n] := by
  simp [List.getD_eq_getElem?_getD, List.getElem?_eq_getElem h]

theorem goodState_addPoint {s : GameState} (hg : GoodState s)
    (hended : s.gameEnded = false) {p : Player} {i : Nat}
    (hp : s.players.get? i = some p) :
    GoodState { s with players := s.players.set i ({ p with roundScores := p.roundScores.set s.currentRound (p.roundScores.getD s.currentRound 0 + 10), totalScore := p.totalScore + 10 }) } := by
  obtain ⟨hsum, hlen⟩ := hg
  have hpm : p ∈ s.players := List.get?_mem hp
  have hplen : p.roundScores.length = s.currentRound + 1 := hlen hended p hpm
  have hr : s.currentRound < p.roundScores.length := by omega
  constructor
  · intro q hq
    rcases List.mem_or_eq_of_mem_set hq with hq' | rfl
    · exact hsum q hq'
    · have := hsum p hpm
      simp only []
      rw [List.sum_set']
      rw [dif_pos hr]
      rw [getD_zero_eq_getElem p.roundScores s.currentRound hr]
      omega
  · intro _ q hq
    rcases List.mem_or_eq_of_mem_set hq with hq' | rfl
    · exact hlen hended q hq'
    · simpa using hplen

theorem goodState_endRound {s : GameState} (hg : GoodState s)
    (hended : s.gameEnded = false) :
    GoodState { s with
        currentRound := s.currentRound + 1
        players := s.players.map (fun p =>
          { p with roundScores := p.roundScores ++ [0] }) } := by
  obtain ⟨hsum, hlen⟩ := hg
  constructor
  · intro q hq
    simp only [List.mem_map] at hq
    obtain ⟨p, hpm, rfl⟩ := hq
    simpa using hsum p hpm
  · intro _ q hq
    simp only [List.mem_map] at hq
    obtain ⟨p, hpm, rfl⟩ := hq
    have := hlen hended p hpm
    simp only [List.length_append, List.length_singleton]
    omega

theorem goodState_resetRound {s : GameState} (hg : GoodState s)
    (hended : s.gameEnded = false) :
    GoodState { s with players := s.players.map (fun p =>
      { p with
          totalScore := p.totalScore - p.roundScores.getD s.currentRound 0
          roundScores := p.roundScores.set s.currentRound 0 }) } := by
  obtain ⟨hsum, hlen⟩ := hg
  constructor
  · intro q hq
    simp only [List.mem_map] at hq
    obtain ⟨p, hpm, rfl⟩ := hq
    have hplen : p.roundScores.length = s.currentRound + 1 := hlen hended p hpm
    have hr : s.currentRound < p.roundScores.length := by omega
    have := hsum p hpm
    simp only []
    rw [List.sum_set', dif_pos hr,
      getD_zero_eq_getElem p.roundScores s.currentRound hr]
    omega
  · intro _ q hq
    simp only [List.mem_map] at hq
    obtain ⟨p, hpm, rfl⟩ := hq
    have := hlen hended p hpm
    simpa using this

theorem goodHistory_snoc {l : Ledger} {a : GameAction}
    (hhist : ∀ b ∈ l.actionHistory,
      b.previousState.gameEnded = false ∧ GoodState b.previousState)
    (ha : a.previousState.gameEnded = false ∧ GoodState a.previousState) :
    ∀ b ∈ l.actionHistory ++ [a],
      b.previousState.gameEnded = false ∧ GoodState b.previousState := by
  intro b hb
  rcases List.mem_append.mp hb with hb' | hb'
  · exact hhist b hb'
  · simp only [List.mem_singleton] at hb'
    subst hb'
    exact ha

theorem goodLedger_step {l l' : Ledger} {op : Op}
    (hg : GoodLedger l) (h : step l op = some l') : GoodLedger l' := by
  obtain ⟨hgs, hhist⟩ := hg
  cases op with
  | addPoint i =>
    simp only [step, addPoint] at h
    cases hef : l.gameState.gameEnded with
    | true =>
      rw [if_pos hef] at h
      cases h
      exact ⟨hgs, hhist⟩
    | false =>
      rw [if_neg (by simp [hef])] at h
      by_cases hpos : (0 : Int) ≤ i
      · rw [if_pos hpos] at h
        cases hp : l.gameState.players.get? i.toNat with
        | none => rw [hp] at h; simp at h
        | some p =>
          rw [hp] at h
          simp only [Option.some.injEq] at h
          subst h
          exact ⟨goodState_addPoint hgs hef hp,
            goodHistory_snoc hhist ⟨hef, hgs⟩⟩
      · rw [if_neg hpos] at h; simp at h
  | endRound =>
    simp only [step, Option.some.injEq] at h
    subst h
    unfold endRound
    cases hef : l.gameState.gameEnded with
    | true => rw [if_pos rfl]; exact ⟨hgs, hhist⟩
    | false =>
      rw [if_neg (by simp)]
      exact ⟨goodState_endRound hgs hef, goodHistory_snoc hhist ⟨hef, hgs⟩⟩
  | resetRound =>
    simp only [step, Option.some.injEq] at h
    subst h
    unfold resetCurrentRound
    cases hef : l.gameState.gameEnded with
    | true => rw [if_pos rfl]; exact ⟨hgs, hhist⟩
    | false =>
      rw [if_neg (by simp)]
      exact ⟨goodState_resetRound hgs hef, goodHistory_snoc hhist ⟨hef, hgs⟩⟩
  | undo =>
    simp only [step, Option.some.injEq] at h
    subst h
    unfold undoLastAction
    cases hlast : l.actionHistory.getLast? with
    | none => exact ⟨hgs, hhist⟩
    | some a =>
      have ham : a ∈ l.actionHistory := List.mem_of_getLast?_eq_some hlast
      refine ⟨(hhist a ham).2, ?_⟩
      intro b hb
      exact hhist b ((List.dropLast_sublist l.actionHistory).subset hb)
  | endGame =>
    simp only [step, Option.some.injEq] at h
    subst h
    refine ⟨⟨hgs.1, ?_⟩, hhist⟩
    intro hcontra
    simp [endGameStep] at hcontra

theorem reachable_goodLedger {l : Ledger} (h : Reachable l) : GoodLedger l := by
  induction h with
  | setup names l h => exact goodLedger_setup h
  | next l op l' _ h ih => exact goodLedger_step ih h

/-! ### Concrete fixtures for witnesses -/

/-- Alice right after setup. -/
def alice : Player := { name := "Alice", totalScore := 0, roundScores := [0] }

/-- Bob right after setup. -/
def bob : Player := { name := "Bob", totalScore := 0, roundScores := [0] }

/-- The ledger produced by completing setup with names `["Alice", "Bob"]`. -/
def demoSetup : Ledger :=
  { gameState := { players := [alice, bob], currentRound := 0, gameEnded := false }
    actionHistory := [] }

theorem demoSetup_reachable : Reachable demoSetup :=
  Reachable.setup ["Alice", "Bob"] demoSetup (by decide)

/-- `demoSetup` after `addPoint(0)`. -/
def demoMid : Ledger :=
  { gameState :=
      { players := [{ name := "Alice", totalScore := 10, roundScores := [10] }, bob]
        currentRound := 0
        gameEnded := false }
    actionHistory :=
      [{ type := .addPoint, playerIndex := some 0, roundIndex := some 0
         previousState := demoSetup.gameState }] }

theorem demoMid_reachable : Reachable demoMid :=
  Reachable.next demoSetup (.addPoint 0) demoMid demoSetup_reachable (by decide)

/-- `demoMid` after `endGame()`: a terminal state with a non-empty history. -/
def demoEnded : Ledger :=
  { demoMid with gameState := { demoMid.gameState with gameEnded := true } }

theorem demoEnded_reachable : Reachable demoEnded :=
  Reachable.next demoMid .endGame demoEnded demoMid_reachable (by decide)

/-! ### The claims -/

/-- C3: in every state reachable from a completed setup by any sequence of
`addPoint`, `endRound`, `resetRound`, `undo` and `endGame` calls, every
player's `totalScore` equals the sum of its `roundScores`. -/
theorem C3_totalScore_eq_sum_roundScores {l : Ledger} (h : Reachable l) :
    ∀ p ∈ l.gameState.players, p.totalScore = p.roundScores.sum :=
  (reachable_goodLedger h).1.1

theorem C3_totalScore_eq_sum_roundScores_witness :
    ({ name := "Alice", totalScore := 10, roundScores := [10] } : Player).totalScore =
      ({ name := "Alice", totalScore := 10, roundScores := [10] } : Player).roundScores.sum :=
  C3_totalScore_eq_sum_roundScores demoMid_reachable _ (by decide)

/-- C7: in every reachable state whose game has not ended, every player's
`roundScores` has length exactly `currentRound + 1`. -/
theorem C7_roundScores_length {l : Ledger} (h : Reachable l)
    (hopen : l.gameState.gameEnded = false) :
    ∀ p ∈ l.gameState.players, p.roundScores.length = l.gameState.currentRound + 1 :=
  (reachable_goodLedger h).1.2 hopen

theorem C7_roundScores_length_witness :
    alice.roundScores.length = demoSetup.gameState.currentRound + 1 :=
  C7_roundScores_length demoSetup_reachable (by decide) alice (by decide)

/-- C6: with `gameEnded = true`, each of `addPoint`, `endRound` and
`resetRound` returns with the ledger — game state and action history —
unchanged: no state change and no appended action record. -/
theorem C6_ended_ops_are_noops {l : Ledger} (h : l.gameState.gameEnded = true)
    (i : Int) :
    addPoint l i = some l ∧ endRound l = l ∧ resetCurrentRound l = l := by
  refine ⟨?_, ?_, ?_⟩ <;>
    simp [addPoint, endRound, resetCurrentRound, h]

theorem C6_ended_ops_are_noops_witness :
    addPoint demoEnded 0 = some demoEnded ∧ endRound demoEnded = demoEnded ∧
      resetCurrentRound demoEnded = demoEnded :=
  C6_ended_ops_are_noops (by decide) 0

/-- C2: for a `playerIndex` outside `0 ≤ playerIndex < players.length`,
`addPoint` never mutates anything: while the game is active the call is
rejected (`newPlayers[playerIndex]` is `undefined`, so the access throws
before any assignment and before the action record is appended — the `none`
result), and in an ended game the guard returns the ledger unchanged.  In
both cases the `LedgerState` and the action history are exactly as before:
no corruption, no partial update. -/
theorem C2_addPoint_out_of_range {l : Ledger} {i : Int}
    (h : ¬ (0 ≤ i ∧ i < (l.gameState.players.length : Int))) :
    (l.gameState.gameEnded = false → addPoint l i = none) ∧
    (l.gameState.gameEnded = true → addPoint l i = some l) := by
  constructor
  · intro hopen
    unfold addPoint
    rw [if_neg (by simp [hopen])]
    by_cases hpos : (0 : Int) ≤ i
    · rw [if_pos hpos]
      have hge : l.gameState.players.length ≤ i.toNat := by
        rcases not_and_or.mp h with hc | hc
        · exact absurd hpos hc
        · omega
      rw [List.get?_eq_none.mpr hge]
    · rw [if_neg hpos]
  · intro hended
    unfold addPoint
    rw [if_pos hended]

theorem C2_addPoint_out_of_range_witness :
    (demoSetup.gameState.gameEnded = false → addPoint demoSetup 5 = none) ∧
    (demoSetup.gameState.gameEnded = true → addPoint demoSetup 5 = some demoSetup) :=
  C2_addPoint_out_of_range (by decide)

/-- The body `resetCurrentRound` takes when the game is still open. -/
theorem resetCurrentRound_open {l : Ledger} (hopen : l.gameState.gameEnded = false) :
    resetCurrentRound l =
      { gameState :=
          { l.gameState with
              players := l.gameState.players.map (fun p =>
                { p with
                    totalScore :=
                      p.totalScore - p.roundScores.getD l.gameState.currentRound 0
                    roundScores := p.roundScores.set l.gameState.currentRound 0 }) }
        actionHistory := l.actionHistory ++
          [{ type := .resetRound
             playerIndex := none
             roundIndex := none
             previousState := l.gameState }] } := by
  unfold resetCurrentRound
  rw [if_neg (by simp [hopen])]

theorem set_zero_getD (rs : List Int) (r : Nat) : ((rs.set r 0)[r]?).getD 0 = 0 := by
  by_cases hlt : r < rs.length
  · simp [List.getElem?_set_self hlt]
  · rw [List.getElem?_eq_none (by simp only [List.length_set]; omega)]
    rfl

/-- C8: for a reachable open state, `resetRound` twice yields the same
`LedgerState` (players, currentRound, gameEnded) as `resetRound` once. -/
theorem C8_resetRound_idempotent {l : Ledger} (_hr : Reachable l)
    (hopen : l.gameState.gameEnded = false) :
    (resetCurrentRound (resetCurrentRound l)).gameState =
      (resetCurrentRound l).gameState := by
  rw [resetCurrentRound_open hopen]
  rw [resetCurrentRound_open (by simpa using hopen)]
  simp only [List.map_map]
  congr 1
  refine List.map_congr_left ?_
  intro p _
  simp [Function.comp, List.getD_eq_getElem?_getD, set_zero_getD, List.set_set, sub_zero]

theorem C8_resetRound_idempotent_witness :
    (resetCurrentRound (resetCurrentRound demoSetup)).gameState =
      (resetCurrentRound demoSetup).gameState :=
  C8_resetRound_idempotent demoSetup_reachable (by decide)

/-- Undoing right after an action was appended restores exactly the captured
snapshot and the previous history. -/
theorem undo_snoc (s : GameState) (hist : List GameAction) (a : GameAction) :
    undoLastAction { gameState := s, actionHistory := hist ++ [a] } =
      { gameState := a.previousState, actionHistory := hist } := by
  unfold undoLastAction
  simp [List.getLast?_concat]

/-- The value a successful `addPoint` produces, written with anonymous
constructors (`Player` is name/total/scores, `GameState` is
players/round/ended, `GameAction` is type/playerIndex/roundIndex/snapshot). -/
theorem addPoint_open {l : Ledger} {i : Int} {p : Player}
    (hopen : l.gameState.gameEnded = false) (hpos : 0 ≤ i)
    (hp : l.gameState.players.get? i.toNat = some p) :
    addPoint l i = some
      ⟨⟨l.gameState.players.set i.toNat
          ⟨p.name, p.totalScore + 10,
            p.roundScores.set l.gameState.currentRound
              (p.roundScores.getD l.gameState.currentRound 0 + 10)⟩,
        l.gameState.currentRound, l.gameState.gameEnded⟩,
       l.actionHistory ++
         [⟨.addPoint, some i, some l.gameState.currentRound, l.gameState⟩]⟩ := by
  unfold addPoint
  rw [if_neg (by simp [hopen]), if_pos hpos, hp]

/-- C4: in an open game, `addPoint i` at a valid index followed by `undo`
restores exactly the prior ledger (state and history, deep equality); and
`undo` immediately after `endRound` likewise restores exactly the
pre-`endRound` ledger — the round count back, no extra zero entries, earlier
actions untouched. -/
theorem C4_add_then_undo_roundtrip {l : Ledger} {i : Int}
    (hopen : l.gameState.gameEnded = false)
    (hvalid : 0 ≤ i ∧ i < (l.gameState.players.length : Int)) :
    (∃ l', addPoint l i = some l' ∧ undoLastAction l' = l) ∧
    undoLastAction (endRound l) = l := by
  obtain ⟨hpos, hlt⟩ := hvalid
  constructor
  · have hlt' : i.toNat < l.gameState.players.length := by omega
    have hp : l.gameState.players.get? i.toNat =
        some (l.gameState.players.get ⟨i.toNat, hlt'⟩) := List.get?_eq_get hlt'
    exact ⟨_, addPoint_open hopen hpos hp, by rw [undo_snoc]⟩
  · unfold endRound
    rw [if_neg (by simp [hopen]), undo_snoc]

theorem C4_add_then_undo_roundtrip_witness :
    (∃ l', addPoint demoSetup 0 = some l' ∧ undoLastAction l' = demoSetup) ∧
    undoLastAction (endRound demoSetup) = demoSetup :=
  C4_add_then_undo_roundtrip (by decide) (by decide)

/-! ### History depth (C5) -/

/-- The preconditions under which an in-game call succeeds and mutates:
`addPoint` needs an index with a player behind it; `endRound` and
`resetRound` always go through; `undo` and `endGame` are not among the
mutating calls the history-depth property quantifies over. -/
def MutValid (l : Ledger) : Op → Prop
  | .addPoint i => 0 ≤ i ∧ i < (l.gameState.players.length : Int)
  | .endRound => True
  | .resetRound => True
  | .undo => False
  | .endGame => False

/-- A sequence of user calls, stopping at the first thrown exception. -/
def applyOps (l : Ledger) : List Op → Option Ledger
  | [] => some l
  | op :: rest =>
    match step l op with
    | none => none
    | some l' => applyOps l' rest

/-- `n` consecutive `undo()` calls. -/
def undoN (n : Nat) (l : Ledger) : Ledger :=
  undoLastAction^[n] l

/-- The body `endRound` takes when the game is still open. -/
theorem endRound_open {l : Ledger} (hopen : l.gameState.gameEnded = false) :
    endRound l =
      ⟨⟨l.gameState.players.map (fun p => ⟨p.name, p.totalScore, p.roundScores ++ [0]⟩),
        l.gameState.currentRound + 1, l.gameState.gameEnded⟩,
       l.actionHistory ++ [⟨.endRound, none, none, l.gameState⟩]⟩ := by
  unfold endRound
  rw [if_neg (by simp [hopen])]

/-- Every valid mutating call succeeds, appends exactly one record, is
inverted by one `undo`, and preserves the open flag and the roster size. -/
theorem mutValid_step {l : Ledger} {op : Op}
    (hopen : l.gameState.gameEnded = false) (hv : MutValid l op) :
    ∃ l', step l op = some l' ∧ undoLastAction l' = l ∧
      l'.gameState.gameEnded = false ∧
      l'.gameState.players.length = l.gameState.players.length ∧
      l'.actionHistory.length = l.actionHistory.length + 1 := by
  cases op with
  | addPoint i =>
    obtain ⟨hpos, hlt⟩ := hv
    have hlt' : i.toNat < l.gameState.players.length := by omega
    have hp : l.gameState.players.get? i.toNat =
        some (l.gameState.players.get ⟨i.toNat, hlt'⟩) := List.get?_eq_get hlt'
    refine ⟨_, addPoint_open hopen hpos hp, by rw [undo_snoc], hopen, ?_, ?_⟩ <;> simp
  | endRound =>
    refine ⟨_, congrArg some (endRound_open hopen), by rw [undo_snoc], hopen, ?_, ?_⟩ <;> simp
  | resetRound =>
    refine ⟨_, congrArg some (resetCurrentRound_open hopen), by rw [undo_snoc],
      hopen, ?_, ?_⟩ <;> simp
  | undo => exact hv.elim
  | endGame => exact hv.elim

/-- Core induction for C5: a run of `N` valid mutating calls from any open
state succeeds; `k ≤ N` undos leave `N - k` extra records, and `N` undos
restore the starting ledger exactly. -/
theorem applyOps_undo {ops : List Op} {l : Ledger}
    (hopen : l.gameState.gameEnded = false)
    (hops : ∀ op ∈ ops, MutValid l op) :
    ∃ l', applyOps l ops = some l' ∧ undoN ops.length l' = l ∧
      l'.gameState.gameEnded = false ∧
      l'.gameState.players.length = l.gameState.players.length ∧
      ∀ k ≤ ops.length,
        (undoN k l').actionHistory.length =
          l.actionHistory.length + (ops.length - k) := by
  induction ops generalizing l with
  | nil =>
    refine ⟨l, rfl, rfl, hopen, rfl, ?_⟩
    intro k hk
    have hk0 : k = 0 := by simpa using hk
    subst hk0
    simp [undoN]
  | cons op rest ih =>
    obtain ⟨l₁, hstep, hundo, hopen₁, hlen₁, hhlen₁⟩ :=
      mutValid_step hopen (hops op (List.mem_cons_self op rest))
    have hops₁ : ∀ o ∈ rest, MutValid l₁ o := by
      intro o ho
      have hvo := hops o (List.mem_cons_of_mem _ ho)
      cases o with
      | addPoint i =>
        obtain ⟨h1, h2⟩ := hvo
        exact ⟨h1, by rw [hlen₁]; exact h2⟩
      | endRound => exact trivial
      | resetRound => exact trivial
      | undo => exact hvo.elim
      | endGame => exact hvo.elim
    obtain ⟨l₂, happ, hundoN, hopen₂, hlen₂, hhlen₂⟩ := ih hopen₁ hops₁
    have hN : undoN (rest.length + 1) l₂ = l := by
      show undoLastAction^[rest.length + 1] l₂ = l
      rw [Function.iterate_succ_apply']
      have h1 : undoLastAction^[rest.length] l₂ = l₁ := hundoN
      rw [h1, hundo]
    refine ⟨l₂, ?_, hN, hopen₂, by rw [hlen₂, hlen₁], ?_⟩
    · simp only [applyOps, hstep]
      exact happ
    · intro k hk
      simp only [List.length_cons] at hk ⊢
      rcases Nat.lt_or_ge k (rest.length + 1) with hk' | hk'
      · have := hhlen₂ k (by omega)
        rw [this, hhlen₁]
        omega
      · have hkeq : k = rest.length + 1 := by omega
        subst hkeq
        rw [hN]
        omega

/-- C5: from the initial post-setup ledger (empty history, open game), any
sequence of `N` valid mutating calls (`addPoint` with an in-range index,
`endRound`, `resetRound`) succeeds; exactly `N` subsequent `undo()` calls
restore the initial ledger — fewer than `N` do not — and an `(N+1)`-th
`undo` is a no-op leaving the ledger unchanged. -/
theorem C5_history_depth {ops : List Op} {l : Ledger}
    (hinit : l.actionHistory = []) (hopen : l.gameState.gameEnded = false)
    (hops : ∀ op ∈ ops, MutValid l op) :
    ∃ l', applyOps l ops = some l' ∧
      undoN ops.length l' = l ∧
      (∀ k < ops.length, undoN k l' ≠ l) ∧
      undoLastAction (undoN ops.length l') = undoN ops.length l' := by
  obtain ⟨l', happ, hundo, _, _, hhlen⟩ := applyOps_undo hopen hops
  refine ⟨l', happ, hundo, ?_, ?_⟩
  · intro k hk hcontra
    have := hhlen k (by omega)
    rw [hcontra, hinit] at this
    simp at this
    omega
  · rw [hundo]
    unfold undoLastAction
    rw [hinit]
    rfl

theorem C5_history_depth_witness :
    ∃ l', applyOps demoSetup [.addPoint 0, .endRound, .resetRound] = some l' ∧
      undoN 3 l' = demoSetup ∧
      (∀ k < 3, undoN k l' ≠ demoSetup) ∧
      undoLastAction (undoN 3 l') = undoN 3 l' :=
  C5_history_depth (by decide) (by decide) (by
    intro op hop
    simp only [List.mem_cons, List.not_mem_nil, or_false] at hop
    rcases hop with rfl | rfl | rfl
    · exact ⟨by decide, by decide⟩
    · exact trivial
    · exact trivial)

/-! ### Undo after endGame (C10) -/

/-- C10: `undoLastAction` has no `gameEnded` guard.  In a reachable ended
state with a non-empty history it pops the most recent record and installs
its snapshot; snapshots are only ever captured by `addPoint`, `endRound` and
`resetRound` while the game is open, so the restored state has
`gameEnded = false` and play resumes.  `endGame` itself appends no history
record, so it is never the action undone. -/
theorem C10_undo_after_endGame {l : Ledger} (hr : Reachable l)
    (_hended : l.gameState.gameEnded = true) (hne : l.actionHistory ≠ []) :
    (∃ a, l.actionHistory.getLast? = some a ∧
        undoLastAction l = ⟨a.previousState, l.actionHistory.dropLast⟩ ∧
        a.previousState.gameEnded = false) ∧
    (undoLastAction l).gameState.gameEnded = false ∧
    (endGameStep l).actionHistory = l.actionHistory := by
  obtain ⟨a, hlast⟩ : ∃ a, l.actionHistory.getLast? = some a := by
    cases hl : l.actionHistory.getLast? with
    | none => exact absurd (List.getLast?_eq_none_iff.mp hl) hne
    | some a => exact ⟨a, rfl⟩
  have hsnap : a.previousState.gameEnded = false :=
    ((reachable_goodLedger hr).2 a (List.mem_of_getLast?_eq_some hlast)).1
  have hund : undoLastAction l = ⟨a.previousState, l.actionHistory.dropLast⟩ := by
    unfold undoLastAction
    rw [hlast]
  exact ⟨⟨a, hlast, hund, hsnap⟩, by rw [hund]; exact hsnap, rfl⟩

theorem C10_undo_after_endGame_witness :
    (∃ a, demoEnded.actionHistory.getLast? = some a ∧
        undoLastAction demoEnded =
          ⟨a.previousState, demoEnded.actionHistory.dropLast⟩ ∧
        a.previousState.gameEnded = false) ∧
    (undoLastAction demoEnded).gameState.gameEnded = false ∧
    (endGameStep demoEnded).actionHistory = demoEnded.actionHistory :=
  C10_undo_after_endGame demoEnded_reachable (by decide) (by decide)

/-! ### The declared winner (C1) -/

/-- Two players tied at the maximal total, used to refute the `first such
player` part of the winner claim. -/
def tieA : Player := { name := "A", totalScore := 20, roundScores := [20] }

/-- See `tieA`. -/
def tieB : Player := { name := "B", totalScore := 20, roundScores := [20] }

/-- The first player in roster order whose `totalScore` is maximal — the
winner the claim describes. -/
def firstMaxPlayer (players : List Player) : Option Player :=
  players.find? (fun p => players.all (fun q => decide (q.totalScore ≤ p.totalScore)))

/-- C1 counterexample: with the roster `[A(20), B(20)]` — both maximal — the
claim picks the first maximal player, A, but `endGame`'s reduce
(`prev.totalScore > current.totalScore ? prev : current`) moves off `prev`
on ties and declares B, the last maximal player. -/
theorem C1_counterexample :
    tieA.totalScore = tieB.totalScore ∧
    firstMaxPlayer [tieA, tieB] = some tieA ∧
    endGameWinner [tieA, tieB] = some tieB ∧
    tieB ≠ tieA := by decide

/-- The reduce in `endGame` keeps the rightmost maximum: the accumulated
winner splits the list into a prefix of players scoring no more and a
suffix of players scoring strictly less. -/
theorem foldl_winner_last_max (a : Player) (l : List Player) :
    ∃ before after,
      a :: l = before ++
        (l.foldl (fun prev current =>
          if prev.totalScore > current.totalScore then prev else current) a) :: after ∧
      (∀ p ∈ a :: l, p.totalScore ≤
        (l.foldl (fun prev current =>
          if prev.totalScore > current.totalScore then prev else current) a).totalScore) ∧
      (∀ p ∈ after, p.totalScore <
        (l.foldl (fun prev current =>
          if prev.totalScore > current.totalScore then prev else current) a).totalScore) := by
  induction l using List.reverseRecOn with
  | nil => exact ⟨[], [], rfl, by simp, by simp⟩
  | append_singleton xs x ih =>
    obtain ⟨before, after, hdec, hle, hlt⟩ := ih
    simp only [List.foldl_append, List.foldl_cons, List.foldl_nil]
    by_cases hgt :
        (xs.foldl (fun prev current =>
          if prev.totalScore > current.totalScore then prev else current) a).totalScore >
          x.totalScore
    · rw [if_pos hgt]
      refine ⟨before, after ++ [x], ?_, ?_, ?_⟩
      · rw [show a :: (xs ++ [x]) = (a :: xs) ++ [x] from rfl, hdec]
        simp
      · intro p hp
        rw [show a :: (xs ++ [x]) = (a :: xs) ++ [x] from rfl] at hp
        rcases List.mem_append.mp hp with hp' | hp'
        · exact hle p hp'
        · simp only [List.mem_singleton] at hp'
          subst hp'
          omega
      · intro p hp
        rcases List.mem_append.mp hp with hp' | hp'
        · exact hlt p hp'
        · simp only [List.mem_singleton] at hp'
          subst hp'
          exact hgt
    · rw [if_neg hgt]
      refine ⟨a :: xs, [], by simp, ?_, by simp⟩
      intro p hp
      rw [show a :: (xs ++ [x]) = (a :: xs) ++ [x] from rfl] at hp
      rcases List.mem_append.mp hp with hp' | hp'
      · have := hle p hp'
        omega
      · simp only [List.mem_singleton] at hp'
        subst hp'
        omega

/-- C1 amended: for a non-empty roster, `endGame` declares a winner whose
`totalScore` is maximal; when several players tie for the maximum the winner
is the **last** such player in roster order (everyone after the winner
scores strictly less), not the first. -/
theorem C1_endGameWinner_last_max {players : List Player} (h : players ≠ []) :
    ∃ w before after,
      endGameWinner players = some w ∧
      players = before ++ w :: after ∧
      (∀ p ∈ players, p.totalScore ≤ w.totalScore) ∧
      (∀ p ∈ after, p.totalScore < w.totalScore) := by
  cases players with
  | nil => exact absurd rfl h
  | cons a l =>
    obtain ⟨before, after, hdec, hle, hlt⟩ := foldl_winner_last_max a l
    exact ⟨_, before, after, rfl, hdec, hle, hlt⟩

theorem C1_endGameWinner_last_max_witness :
    ∃ w before after,
      endGameWinner [tieA, tieB] = some w ∧
      [tieA, tieB] = before ++ w :: after ∧
      (∀ p ∈ [tieA, tieB], p.totalScore ≤ w.totalScore) ∧
      (∀ p ∈ after, p.totalScore < w.totalScore) :=
  C1_endGameWinner_last_max (by decide)

/-! ### Leader position (C9) -/

/-- The strict priority order the stable descending sort realises on
index-decorated players: `a` precedes `b` when `a` scores strictly more, or
when they tie and `a` has the smaller roster index. -/
def RankedBefore (a b : Nat × Player) : Prop :=
  b.2.totalScore < a.2.totalScore ∨
    (a.2.totalScore = b.2.totalScore ∧ a.1 < b.1)

instance (a b : Nat × Player) : Decidable (RankedBefore a b) := by
  unfold RankedBefore
  exact inferInstance

theorem rankedBefore_mk {j : Nat} {q : Player} {i : Nat} {p : Player} :
    RankedBefore (j, q) (i, p) ↔
      p.totalScore < q.totalScore ∨ (q.totalScore = p.totalScore ∧ j < i) :=
  Iff.rfl

theorem rankedBefore_irrefl (a : Nat × Player) : ¬ RankedBefore a a := by
  unfold RankedBefore
  omega

theorem rankedBefore_asymm {a b : Nat × Player} (h : RankedBefore a b) :
    ¬ RankedBefore b a := by
  unfold RankedBefore at h ⊢
  omega

theorem insertScoreDesc_perm (x : Nat × Player) (l : List (Nat × Player)) :
    List.Perm (insertScoreDesc x l) (x :: l) := by
  induction l with
  | nil => exact List.Perm.refl _
  | cons y ys ih =>
    unfold insertScoreDesc
    by_cases hc : x.2.totalScore ≥ y.2.totalScore
    · rw [if_pos hc]
    · rw [if_neg hc]
      exact (ih.cons y).trans (List.Perm.swap x y ys)

theorem sortScoreDesc_perm (l : List (Nat × Player)) :
    List.Perm (sortScoreDesc l) l := by
  induction l with
  | nil => exact List.Perm.refl _
  | cons x xs ih =>
    exact (insertScoreDesc_perm x (sortScoreDesc xs)).trans (ih.cons x)

theorem insertScoreDesc_pairwise {x : Nat × Player} {l : List (Nat × Player)}
    (hl : l.Pairwise RankedBefore) (hx : ∀ y ∈ l, x.1 < y.1) :
    (insertScoreDesc x l).Pairwise RankedBefore := by
  induction l with
  | nil => simp [insertScoreDesc]
  | cons y ys ih =>
    rw [List.pairwise_cons] at hl
    obtain ⟨hy, hys⟩ := hl
    unfold insertScoreDesc
    by_cases hc : x.2.totalScore ≥ y.2.totalScore
    · rw [if_pos hc]
      rw [List.pairwise_cons]
      refine ⟨?_, List.pairwise_cons.mpr ⟨hy, hys⟩⟩
      intro z hz
      rcases List.mem_cons.mp hz with rfl | hz'
      · have hxy := hx z (List.mem_cons_self _ _)
        unfold RankedBefore
        omega
      · have hyz := hy z hz'
        have hxz := hx z (List.mem_cons_of_mem _ hz')
        unfold RankedBefore at hyz ⊢
        omega
    · rw [if_neg hc]
      rw [List.pairwise_cons]
      constructor
      · intro z hz
        rcases List.mem_cons.mp ((insertScoreDesc_perm x ys).mem_iff.mp hz)
            with rfl | hz'
        · unfold RankedBefore
          omega
        · exact hy z hz'
      · exact ih hys (fun q hq => hx q (List.mem_cons_of_mem _ hq))

theorem sortScoreDesc_pairwise {l : List (Nat × Player)}
    (hl : l.Pairwise (fun a b => a.1 < b.1)) :
    (sortScoreDesc l).Pairwise RankedBefore := by
  induction l with
  | nil => simp [sortScoreDesc]
  | cons x xs ih =>
    rw [List.pairwise_cons] at hl
    obtain ⟨hx, hxs⟩ := hl
    refine insertScoreDesc_pairwise (ih hxs) ?_
    intro y hy
    exact hx y ((sortScoreDesc_perm xs).mem_iff.mp hy)

/-- In a list sorted by `RankedBefore` with pairwise-distinct indices, the
element carrying index `i` sits at a position equal to the number of
elements ranked before it. -/
theorem findIdx?_sorted {S : List (Nat × Player)} {i : Nat} {q : Player}
    (hpw : S.Pairwise RankedBefore) (hmem : (i, q) ∈ S)
    (hnodup : (S.map Prod.fst).Nodup) :
    S.findIdx? (fun p => p.1 = i) =
      some (S.countP (fun b => decide (RankedBefore b (i, q)))) := by
  induction S with
  | nil => cases hmem
  | cons y ys ih =>
    rw [List.pairwise_cons] at hpw
    obtain ⟨hy, hys⟩ := hpw
    rw [List.map_cons, List.nodup_cons] at hnodup
    obtain ⟨hfst, hnodup'⟩ := hnodup
    by_cases hxy : y = (i, q)
    · rw [List.findIdx?_cons, if_pos (by simp [hxy])]
      have hcount : (y :: ys).countP (fun b => decide (RankedBefore b (i, q))) = 0 := by
        rw [List.countP_eq_zero]
        intro b hb
        rcases List.mem_cons.mp hb with hbe | hb'
        · rw [hbe, hxy]
          simpa using rankedBefore_irrefl (i, q)
        · have hasym := hy b hb'
          rw [hxy] at hasym
          simpa using rankedBefore_asymm hasym
      rw [hcount]
    · have hxys : (i, q) ∈ ys := by
        rcases List.mem_cons.mp hmem with h | h
        · exact absurd h.symm hxy
        · exact h
      have hpred : y.1 ≠ i := by
        intro hcontra
        exact hfst (by rw [hcontra]; exact List.mem_map.mpr ⟨(i, q), hxys, rfl⟩)
      rw [List.findIdx?_cons, if_neg (by simpa using hpred)]
      rw [show (1 : Nat) = 0 + 1 from rfl, List.findIdx?_succ]
      rw [ih hys hxys hnodup']
      rw [List.countP_cons, if_pos (by simpa using hy (i, q) hxys)]
      rfl

theorem enum_pairwise_fst (l : List Player) :
    l.enum.Pairwise (fun a b => a.1 < b.1) := by
  have hmap : (l.enum.map Prod.fst).Pairwise (fun a b => a < b) := by
    rw [List.enum_eq_enumFrom, List.enumFrom_map_fst]
    exact List.pairwise_lt_range' 0 l.length
  exact (List.pairwise_map.mp hmap)

theorem enum_mem (l : List Player) (i : Nat) (hi : i < l.length) :
    (i, l.get ⟨i, hi⟩) ∈ l.enum := by
  have hlen : i < l.enum.length := by
    rw [List.enum_eq_enumFrom]
    simpa using hi
  have h2 := List.getElem_enumFrom l 0 i (by rw [List.enum_eq_enumFrom] at hlen; exact hlen)
  have h3 : l.enum.get ⟨i, hlen⟩ = (i, l.get ⟨i, hi⟩) := by
    simp only [List.get_eq_getElem]
    simp only [List.enum_eq_enumFrom] at h2 ⊢
    simp at h2
    simp [h2]
  rw [← h3]
  exact List.get_mem _ _ _

theorem sorted_fst_nodup (l : List Player) :
    ((sortScoreDesc l.enum).map Prod.fst).Nodup := by
  rw [((sortScoreDesc_perm l.enum).map Prod.fst).nodup_iff]
  rw [List.enum_eq_enumFrom, List.enumFrom_map_fst]
  exact List.nodup_range' 0 l.length

/-- `getLeaderPosition` as a counting formula: one plus the number of
roster entries ranked before player `i`. -/
theorem getLeaderPosition_eq_countP (players : List Player) (i : Nat)
    (hi : i < players.length) :
    getLeaderPosition players i =
      1 + players.enum.countP
        (fun b => decide (RankedBefore b (i, players.get ⟨i, hi⟩))) := by
  have hfind := findIdx?_sorted
    (sortScoreDesc_pairwise (enum_pairwise_fst players))
    ((sortScoreDesc_perm players.enum).mem_iff.mpr (enum_mem players i hi))
    (sorted_fst_nodup players)
  have hdef : getLeaderPosition players i =
      match (sortScoreDesc players.enum).findIdx? (fun p => p.1 = i) with
      | some k => k + 1
      | none => 0 := rfl
  rw [hdef, hfind]
  show (sortScoreDesc players.enum).countP
      (fun b => decide (RankedBefore b (i, players.get ⟨i, hi⟩))) + 1 = _
  rw [List.Perm.countP_eq _ (sortScoreDesc_perm players.enum)]
  omega

/-- The default used to read `players[i]` in the spec-side rank formula. -/
def defaultPlayer : Player := { name := "", totalScore := 0, roundScores := [] }

/-- Modelled from the claim text: the 1-based position of player `i` in the
ranking by `totalScore` descending with ties broken stably by roster order —
one more than the number of players who outscore player `i` plus the number
of earlier-roster players who tie with it. -/
def leaderRankSpec (players : List Player) (i : Nat) : Nat :=
  1 + players.enum.countP (fun jq =>
    decide ((players.getD i defaultPlayer).totalScore < jq.2.totalScore) ||
    (decide (jq.2.totalScore = (players.getD i defaultPlayer).totalScore) &&
      decide (jq.1 < i)))

/-- Player C for the Scenario D roster `A(20), B(20), C(10)`. -/
def pC : Player := { name := "C", totalScore := 10, roundScores := [10] }

/-- C9: `getLeaderPosition` is the 1-based position in the ranking sorted by
`totalScore` descending with ties broken stably by roster order (expressed
as the counting formula `leaderRankSpec`); positions are unique, so exactly
one player occupies position 1 even on a tie for first place; and on the
roster `A(20), B(20), C(10)` it returns 1 for A, 2 for B and 3 for C. -/
theorem C9_getLeaderPosition_rank :
    (∀ (players : List Player) (i : Nat),
      i < players.length → getLeaderPosition players i = leaderRankSpec players i) ∧
    (∀ (players : List Player) (i j : Nat),
      i < players.length → j < players.length →
      getLeaderPosition players i = 1 → getLeaderPosition players j = 1 → i = j) ∧
    getLeaderPosition [tieA, tieB, pC] 0 = 1 ∧
    getLeaderPosition [tieA, tieB, pC] 1 = 2 ∧
    getLeaderPosition [tieA, tieB, pC] 2 = 3 := by
  refine ⟨?_, ?_, by decide, by decide, by decide⟩
  · intro players i hi
    rw [getLeaderPosition_eq_countP players i hi]
    unfold leaderRankSpec
    congr 1
    refine List.countP_congr ?_
    intro jq _
    have hget : players.getD i defaultPlayer = players.get ⟨i, hi⟩ := by
      rw [List.getD_eq_getElem?_getD, List.getElem?_eq_getElem hi]
      rfl
    rw [hget]
    simp [RankedBefore]
  · intro players i j hi hj h1 h2
    rw [getLeaderPosition_eq_countP players i hi] at h1
    rw [getLeaderPosition_eq_countP players j hj] at h2
    have c1 : players.enum.countP
        (fun b => decide (RankedBefore b (i, players.get ⟨i, hi⟩))) = 0 := by omega
    have c2 : players.enum.countP
        (fun b => decide (RankedBefore b (j, players.get ⟨j, hj⟩))) = 0 := by omega
    rw [List.countP_eq_zero] at c1 c2
    have k1 := c1 _ (enum_mem players j hj)
    have k2 := c2 _ (enum_mem players i hi)
    simp only [decide_eq_true_eq] at k1 k2
    rw [rankedBefore_mk] at k1 k2
    omega

theorem C9_getLeaderPosition_rank_witness :
    0 < ([tieA, tieB, pC] : List Player).length ∧
    getLeaderPosition [tieA, tieB, pC] 0 = leaderRankSpec [tieA, tieB, pC] 0 :=
  ⟨by decide, C9_getLeaderPosition_rank.1 [tieA, tieB, pC] 0 (by decide)⟩

end KP
